import Mathlib

/-!
# Verification of the AoC2023 solvers

Shallow embedding of the three single-file Rust solvers:

* `src/Day-1/trebuchet/src/main.rs` — the digit-word normalizer `replace_strings`;
* `src/Day-2/bag-game/src/main.rs`  — game feasibility (`is_feasible`) and id summing;
* `src/Day-3/map-reader/src/main.rs` — grid scanning (`parse_symbols`, `parse_numbers`)
  and the per-number `border` and `value` computations.

Strings are modelled as `List Char`.  Where the Rust code can panic
(string slicing off a UTF-8 character boundary, `Option::unwrap` on `None`,
unsigned subtraction below zero), the embedding returns `Option` results and
`none` models the panic.  `u32` and `usize` arithmetic are modelled on `Nat`
with explicit reduction modulo `2 ^ 32` and `2 ^ 64` (release-mode wrapping
semantics; a debug build panics at exactly the inputs where the reduction
matters).
-/

/-! ## Day 1: `replace_strings` (trebuchet)

The Rust loop drives a cursor `i` with `while i < line.len()`, where `len` is
the UTF-8 *byte* length, slices `&line[i..]` (panics off a char boundary), but
reads `line.chars().nth(i)` which indexes by *character*.  The model keeps the
byte cursor faithfully: `byteLen` is the byte length, `byteDrop` is the slice
(`none` = slicing panic), and `line.get? i` is `chars().nth(i)`. -/

/-- UTF-8 byte length of a string, as Rust's `str::len`. -/
def byteLen (s : List Char) : Nat := (s.map Char.utf8Size).sum

/-- Byte-index suffix `&line[i..]`: `none` when `i` is not a character
boundary (or exceeds the length), which panics in Rust. -/
def byteDrop : List Char → Nat → Option (List Char)
  | s, 0 => some s
  | [], _ + 1 => none
  | c :: cs, i + 1 =>
    if c.utf8Size ≤ i + 1 then byteDrop cs (i + 1 - c.utf8Size) else none

/-- Rust `str::starts_with` restricted to our ASCII keys: does `s` start with
the key `k`? -/
def startsWithKey : List Char → List Char → Bool
  | _, [] => true
  | [], _ :: _ => false
  | c :: cs, k :: ks => c == k && startsWithKey cs ks

/-- The nine word-to-digit entries of the `HashMap` in `replace_strings`,
in the textual order of the source. -/
def wordMap : List (List Char × Char) :=
  [("one".toList, '1'), ("two".toList, '2'), ("three".toList, '3'),
   ("four".toList, '4'), ("five".toList, '5'), ("six".toList, '6'),
   ("seven".toList, '7'), ("eight".toList, '8'), ("nine".toList, '9')]

/-- The `for (key, value) in map.iter()` loop with its `break` on the first
entry whose key starts the suffix. -/
def findMatch (words : List (List Char × Char)) (s : List Char) :
    Option (List Char × Char) :=
  words.find? (fun kv => startsWithKey s kv.1)

/-- The `while i < line.len()` loop of `replace_strings`, parameterized by the
iteration order `words` of the hash map.  Each loop iteration advances `i` by
at least one byte, so `byteLen line` iterations always suffice; `fuel` is an
upper bound on the remaining iterations (the `none` on exhausted fuel is dead
code whenever `byteLen line - i ≤ fuel`).  A `none` result models a panic:
the slice `&line[i..]` off a character boundary, or
`line.chars().nth(i).unwrap()` when fewer than `i + 1` characters remain. -/
def replaceGo (words : List (List Char × Char)) (line : List Char) :
    Nat → Nat → Option (List Char)
  | 0, i => if i < byteLen line then none else some []
  | fuel + 1, i =>
    if i < byteLen line then
      match byteDrop line i with
      | none => none
      | some suffix =>
        match line.get? i with
        | none => none
        | some c =>
          if c.isDigit then
            (replaceGo words line fuel (i + 1)).map (fun out => c :: out)
          else
            match findMatch words suffix with
            | some kv =>
              (replaceGo words line fuel (i + kv.1.length - 1)).map
                (fun out => kv.2 :: out)
            | none => replaceGo words line fuel (i + 1)
    else some []

/-- The function `replace_strings` with an explicit iteration order for the nine map
entries. -/
def replaceStringsWith (words : List (List Char × Char)) (line : List Char) :
    Option (List Char) :=
  replaceGo words line (byteLen line) 0

/-- Model of `replace_strings` from `src/Day-1/trebuchet/src/main.rs`, with the map
iterated in source order.  `none` models a panic. -/
def replace_strings (line : List Char) : Option (List Char) :=
  replaceStringsWith wordMap line

/-! ## Day 3: data model (map-reader) -/

/-- Grid position, `struct Position { row: usize, col: usize }`. -/
structure Position where
  row : Nat
  col : Nat
deriving DecidableEq, Repr

/-- One digit cell, `struct Numeral { position: Position, value: u32 }`. -/
structure Numeral where
  position : Position
  value : Nat
deriving DecidableEq, Repr

/-- Rust `struct Number(Vec<Numeral>)`. -/
abbrev Number := List Numeral

/-- Checked `usize` decrement: Rust `n - 1` on an unsigned integer, where
`none` models the underflow panic at `n = 0`. -/
def csub (n : Nat) : Option Nat := if n = 0 then none else some (n - 1)

/-- The positions inserted by `Number::border` for the numeral with enumerate
index `i` (out of `len`): five left-side neighbors for `i == 0`, five
right-side neighbors for `i == len - 1` (only when `i ≠ 0`: the Rust code
uses `else if`), two vertical neighbors otherwise.  `none` models the
underflow panic of `row - 1` or `col - 1`. -/
def borderContrib (len i : Nat) (p : Position) : Option (List Position) :=
  if i = 0 then
    match csub p.row, csub p.col with
    | some ru, some cl =>
      some [⟨ru, p.col⟩, ⟨p.row + 1, p.col⟩, ⟨ru, cl⟩, ⟨p.row + 1, cl⟩,
        ⟨p.row, cl⟩]
    | _, _ => none
  else if i = len - 1 then
    match csub p.row with
    | some ru =>
      some [⟨ru, p.col⟩, ⟨p.row + 1, p.col⟩, ⟨ru, p.col + 1⟩,
        ⟨p.row + 1, p.col + 1⟩, ⟨p.row, p.col + 1⟩]
    | none => none
  else
    match csub p.row with
    | some ru => some [⟨ru, p.col⟩, ⟨p.row + 1, p.col⟩]
    | none => none

/-- Rust `HashSet::insert`: the accumulated list has set semantics (no
duplicates); insertion order is kept for definiteness. -/
def insertPos (l : List Position) (p : Position) : List Position :=
  if p ∈ l then l else l ++ [p]

/-- The `enumerate().for_each` loop of `Number::border`. -/
def borderGo (len : Nat) : Nat → List Position → List Numeral →
    Option (List Position)
  | _, acc, [] => some acc
  | i, acc, nm :: rest =>
    match borderContrib len i nm.position with
    | none => none
    | some ps => borderGo len (i + 1) (ps.foldl insertPos acc) rest

/-- Model of `Number::border` from `src/Day-3/map-reader/src/main.rs`; `none` models
the unsigned-subtraction panic at grid edges. -/
def Number.border (n : Number) : Option (List Position) :=
  borderGo n.length 0 [] n

/-- The constant `2 ^ 32`, the modulus of `u32` arithmetic. -/
def M32 : Nat := 4294967296

/-- Wrapping `u32` addition. -/
def u32add (a b : Nat) : Nat := (a + b) % M32

/-- Wrapping `u32` multiplication. -/
def u32mul (a b : Nat) : Nat := a * b % M32

/-- Wrapping `u32` power, as `10u32.pow e` in release mode. -/
def u32pow (b e : Nat) : Nat := b ^ e % M32

/-- The accumulation loop of `Number::value`:
`value += numeral.value * 10u32.pow((len - i - 1) as u32)`. -/
def valueGo (len : Nat) : Nat → Nat → List Numeral → Nat
  | _, acc, [] => acc
  | i, acc, nm :: rest =>
    valueGo len (i + 1) (u32add acc (u32mul nm.value (u32pow 10 (len - i - 1)))) rest

/-- Model of `Number::value` from `src/Day-3/map-reader/src/main.rs` (`u32`
arithmetic). -/
def Number.value (n : Number) : Nat := valueGo n.length 0 0 n

/-- Specification-side positional decimal evaluation
`Σ dᵢ * 10 ^ (k - 1 - i)` over unbounded naturals: the head digit of a list
of length `k` is weighted `10 ^ (k - 1)`, i.e. the tail's length. -/
def positionalValue : List Nat → Nat
  | [] => 0
  | d :: ds => d * 10 ^ ds.length + positionalValue ds

/-- Rust `char::to_digit(10)`: `some` exactly on the ASCII digits `0`-`9`. -/
def toDigit (ch : Char) : Option Nat :=
  if ch.isDigit then some (ch.toNat - '0'.toNat) else none

/-- The per-row column loop of `parse_numbers`: digits extend the pending
buffer, a non-digit seals a non-empty buffer, and end of row (the base case)
seals a non-empty trailing buffer. -/
def scanCols (row : Nat) : Nat → List Char → List Number → List Numeral →
    List Number × List Numeral
  | _, [], numbers, current =>
    if current.isEmpty then (numbers, current) else (numbers ++ [current], [])
  | col, ch :: rest, numbers, current =>
    match toDigit ch with
    | some d => scanCols row (col + 1) rest numbers (current ++ [⟨⟨row, col⟩, d⟩])
    | none =>
      if current.isEmpty then scanCols row (col + 1) rest numbers current
      else scanCols row (col + 1) rest (numbers ++ [current]) []

/-- The row loop of `parse_numbers`; the pending buffer is threaded across
rows exactly as the Rust `current_number` variable is. -/
def scanRows : Nat → List (List Char) → List Number → List Numeral →
    List Number × List Numeral
  | _, [], numbers, current => (numbers, current)
  | row, line :: rest, numbers, current =>
    scanRows (row + 1) rest (scanCols row 0 line numbers current).1
      (scanCols row 0 line numbers current).2

/-- Model of `parse_numbers` from `src/Day-3/map-reader/src/main.rs`. -/
def parse_numbers (input : List (List Char)) : List Number :=
  (scanRows 0 input [] []).1

/-- The `match ch` of `parse_symbols`: exactly `*`, `$`, `+`, `#` push a
position, everything else falls to the wildcard arm. -/
def symStep (row col : Nat) (ch : Char) (acc : List Position) : List Position :=
  if ch = '*' then acc ++ [⟨row, col⟩]
  else if ch = '$' then acc ++ [⟨row, col⟩]
  else if ch = '+' then acc ++ [⟨row, col⟩]
  else if ch = '#' then acc ++ [⟨row, col⟩]
  else acc

/-- Column loop of `parse_symbols`. -/
def symCols (row : Nat) : Nat → List Char → List Position → List Position
  | _, [], acc => acc
  | col, ch :: rest, acc => symCols row (col + 1) rest (symStep row col ch acc)

/-- Row loop of `parse_symbols`. -/
def symRows : Nat → List (List Char) → List Position → List Position
  | _, [], acc => acc
  | row, line :: rest, acc => symRows (row + 1) rest (symCols row 0 line acc)

/-- Model of `parse_symbols` from `src/Day-3/map-reader/src/main.rs` (row-major scan
order). -/
def parse_symbols (input : List (List Char)) : List Position :=
  symRows 0 input []

/-- A contiguous same-row digit run: the numeral positions are
`(r, c0), (r, c0 + 1), …` — the Number invariant of the data model. -/
def isRunFrom (r c0 : Nat) : List Numeral → Bool
  | [] => true
  | nm :: rest => nm.position == (⟨r, c0⟩ : Position) && isRunFrom r (c0 + 1) rest

/-- Well-formedness of a parsed `Number`: non-empty, and its numerals form a
contiguous run on one row with strictly increasing columns. -/
def numberWF (n : Number) : Prop :=
  n ≠ [] ∧ ∃ r c0, isRunFrom r c0 n = true

/-- The 8-connected border of the bounding box of the run occupying columns
`c0..c1` of row `r`, minus the run's own cells (stated for `1 ≤ r`,
`1 ≤ c0`, where the `Nat` subtractions are exact). -/
def inBoxBorder (r c0 c1 : Nat) (p : Position) : Prop :=
  r - 1 ≤ p.row ∧ p.row ≤ r + 1 ∧ c0 - 1 ≤ p.col ∧ p.col ≤ c1 + 1 ∧
    ¬(p.row = r ∧ c0 ≤ p.col ∧ p.col ≤ c1)

instance (r c0 c1 : Nat) (p : Position) : Decidable (inBoxBorder r c0 c1 p) := by
  unfold inBoxBorder
  infer_instance

/-- The positions `borderContrib` inserts, as a total function (valid when
the checked subtractions succeed). -/
def contribPositions (len i : Nat) (p : Position) : List Position :=
  if i = 0 then
    [⟨p.row - 1, p.col⟩, ⟨p.row + 1, p.col⟩, ⟨p.row - 1, p.col - 1⟩,
      ⟨p.row + 1, p.col - 1⟩, ⟨p.row, p.col - 1⟩]
  else if i = len - 1 then
    [⟨p.row - 1, p.col⟩, ⟨p.row + 1, p.col⟩, ⟨p.row - 1, p.col + 1⟩,
      ⟨p.row + 1, p.col + 1⟩, ⟨p.row, p.col + 1⟩]
  else
    [⟨p.row - 1, p.col⟩, ⟨p.row + 1, p.col⟩]

/-- The ten-line example grid of the Day 3 tests. -/
def exampleGrid : List (List Char) :=
  ["467..114..".toList, "...*......".toList, "..35..633.".toList,
   "......#...".toList, "617*......".toList, ".....+.58.".toList,
   "..592.....".toList, "......755.".toList, "...$.*....".toList,
   ".664.598..".toList]

/-! ## Day 2: bag-game -/

/-- Rust `enum Color`. -/
inductive Color
  | Blue
  | Green
  | Red
deriving DecidableEq

/-- Rust `struct ColorCount { color: Color, count: usize }`. -/
structure ColorCount where
  color : Color
  count : Nat
deriving DecidableEq

/-- Rust `struct Round(Vec<ColorCount>)`. -/
abbrev Round := List ColorCount

/-- Rust `struct Game { id: usize, rounds: Vec<Round> }`. -/
structure Game where
  id : Nat
  rounds : List Round
deriving DecidableEq

/-- The constant `2 ^ 64`, the modulus of `usize` arithmetic on the 64-bit
target. -/
def M64 : Nat := 18446744073709551616

/-- Wrapping `usize` addition, as `a + b` on `usize` in release mode (a
debug build panics at exactly the inputs where the reduction matters). -/
def u64add (a b : Nat) : Nat := (a + b) % M64

/-- The per-round accumulation of `is_feasible`: the mutable `blue`, `green`,
`red` tallies, summing repeated entries of the same color in `usize`
arithmetic. -/
def roundTotals (round : Round) : Nat × Nat × Nat :=
  round.foldl
    (fun acc cc =>
      match cc.color with
      | Color.Blue => (u64add acc.1 cc.count, acc.2.1, acc.2.2)
      | Color.Green => (acc.1, u64add acc.2.1 cc.count, acc.2.2)
      | Color.Red => (acc.1, acc.2.1, u64add acc.2.2 cc.count))
    (0, 0, 0)

/-- Model of `is_feasible` from `src/Day-2/bag-game/src/main.rs`:
every round's totals satisfy `blue <= 14 && green <= 13 && red <= 12`. -/
def is_feasible (game : Game) : Bool :=
  game.rounds.all (fun round =>
    decide ((roundTotals round).1 ≤ 14) &&
      decide ((roundTotals round).2.1 ≤ 13) && decide ((roundTotals round).2.2 ≤ 12))

/-- Specification-side total of one color in a round (summing repeated
entries). -/
def colorTotal (c : Color) (round : Round) : Nat :=
  ((round.filter (fun cc => cc.color == c)).map ColorCount.count).sum

/-- The fold in `main` that sums the ids of the feasible games, in `usize`
arithmetic. -/
def sumFeasibleIds (games : List Game) : Nat :=
  games.foldl (fun acc g => if is_feasible g then u64add acc g.id else acc) 0

/-- C3: `replace_strings` advances the cursor by a matched word's length
minus one, so overlapping digit words sharing a letter are both recognized:
`"xtwone3four"` normalizes to `"2134"` and `"eightwothree"` to `"823"`. -/
theorem replace_strings_overlap :
    replace_strings "xtwone3four".toList = some "2134".toList ∧
      replace_strings "eightwothree".toList = some "823".toList := by
  constructor <;> decide

/-- C5 counterexample: on the non-ASCII input `"é"` the function panics
(`&line[i..]` is sliced at byte index 1, inside the two-byte character), so
`replace_strings` is not total over all strings. -/
theorem replace_strings_nonascii_panics : replace_strings ['é'] = none := by
  decide

/-- C1 counterexample: for the single-numeral Number at `(1, 1)` the computed
border is only the five left-side neighbors; the position `(1, 2)` belongs to
the 8-connected bounding-box border (here the full 8-neighborhood) but is not
produced, so the border is not the 8-neighborhood and has 5, not 8,
elements. -/
theorem border_single_cell_ce :
    Number.border [⟨⟨1, 1⟩, 5⟩] =
        some [⟨0, 1⟩, ⟨2, 1⟩, ⟨0, 0⟩, ⟨2, 0⟩, ⟨1, 0⟩] ∧
      inBoxBorder 1 1 1 ⟨1, 2⟩ ∧
      ((⟨1, 2⟩ : Position) ∈ [(⟨0, 1⟩ : Position), ⟨2, 1⟩, ⟨0, 0⟩, ⟨2, 0⟩, ⟨1, 0⟩] → False) := by
  refine ⟨by decide, by decide, by decide⟩

/-- C7 counterexample: a ten-digit run of 9s has positional value
9999999999, which exceeds `u32`; `Number::value` yields
`9999999999 % 2 ^ 32 = 1410065407` (wrapping; a debug build panics), so
`value()` does not equal the positional decimal evaluation for every
Number. -/
theorem value_overflow_ce :
    Number.value
        [⟨⟨0, 0⟩, 9⟩, ⟨⟨0, 1⟩, 9⟩, ⟨⟨0, 2⟩, 9⟩, ⟨⟨0, 3⟩, 9⟩, ⟨⟨0, 4⟩, 9⟩,
          ⟨⟨0, 5⟩, 9⟩, ⟨⟨0, 6⟩, 9⟩, ⟨⟨0, 7⟩, 9⟩, ⟨⟨0, 8⟩, 9⟩, ⟨⟨0, 9⟩, 9⟩] = 1410065407 ∧
      positionalValue
        (List.map Numeral.value
          [⟨⟨0, 0⟩, 9⟩, ⟨⟨0, 1⟩, 9⟩, ⟨⟨0, 2⟩, 9⟩, ⟨⟨0, 3⟩, 9⟩, ⟨⟨0, 4⟩, 9⟩,
            ⟨⟨0, 5⟩, 9⟩, ⟨⟨0, 6⟩, 9⟩, ⟨⟨0, 7⟩, 9⟩, ⟨⟨0, 8⟩, 9⟩, ⟨⟨0, 9⟩, 9⟩]) = 9999999999 ∧
      (1410065407 : Nat) ≠ 9999999999 := by
  refine ⟨by decide, by decide, by decide⟩

/-- Characters recognized as symbols are none of `.` or the digits: helper
giving the `symStep` wildcard arm for those characters. -/
theorem symStep_skip (row col : Nat) (acc : List Position) (c : Char)
    (h : c = '.' ∨ c.isDigit = true) : symStep row col c acc = acc := by
  have h1 : c ≠ '*' := by
    rcases h with h | h
    · subst h; decide
    · intro e; rw [e] at h; exact absurd h (by decide)
  have h2 : c ≠ '$' := by
    rcases h with h | h
    · subst h; decide
    · intro e; rw [e] at h; exact absurd h (by decide)
  have h3 : c ≠ '+' := by
    rcases h with h | h
    · subst h; decide
    · intro e; rw [e] at h; exact absurd h (by decide)
  have h4 : c ≠ '#' := by
    rcases h with h | h
    · subst h; decide
    · intro e; rw [e] at h; exact absurd h (by decide)
  simp [symStep, h1, h2, h3, h4]

set_option maxRecDepth 8192 in
/-- C9: on the ten-line example grid, `parse_symbols` emits exactly the six
positions `(1,3), (3,6), (4,3), (5,5), (8,3), (8,5)` in row-major order,
`parse_numbers` returns ten Numbers whose values in scan order are
`[467, 114, 35, 633, 617, 58, 592, 755, 664, 598]`, and the character match
produces a Symbol only for the closed set `{*, $, +, #}` — never for `.` or
a digit. -/
theorem example_grid_entities :
    parse_symbols exampleGrid =
        [⟨1, 3⟩, ⟨3, 6⟩, ⟨4, 3⟩, ⟨5, 5⟩, ⟨8, 3⟩, ⟨8, 5⟩] ∧
      (parse_numbers exampleGrid).map Number.value =
        [467, 114, 35, 633, 617, 58, 592, 755, 664, 598] ∧
      ∀ (row col : Nat) (acc : List Position) (c : Char),
        c = '.' ∨ c.isDigit = true → symStep row col c acc = acc := by
  exact ⟨by decide, by decide, symStep_skip⟩

/-- C9 witness: the wildcard arm at a concrete instance. -/
theorem example_grid_entities_witness : symStep 0 0 '.' [] = [] :=
  example_grid_entities.2.2 0 0 [] '.' (Or.inl rfl)

/-- The accumulation loop of `Number::value` computes, modulo `2 ^ 32`, the
accumulator plus the positional value of the remaining digits; the exponents
are aligned by `i + rest.length = len`. -/
theorem valueGo_eq (rest : List Numeral) :
    ∀ (len i acc : Nat), i + rest.length = len → acc < M32 →
      valueGo len i acc rest =
        (acc + positionalValue (rest.map Numeral.value)) % M32 := by
  induction rest with
  | nil =>
    intro len i acc _ hacc
    simp [valueGo, positionalValue, Nat.mod_eq_of_lt hacc]
  | cons nm rest ih =>
    intro len i acc hlen hacc
    simp only [List.length_cons] at hlen
    have hM : 0 < M32 := by decide
    have he : len - i - 1 = rest.length := by omega
    have hstep : u32add acc (u32mul nm.value (u32pow 10 (len - i - 1))) =
        (acc + nm.value * 10 ^ rest.length) % M32 := by
      unfold u32add u32mul u32pow
      rw [he]
      have h1 : nm.value * (10 ^ rest.length % M32) % M32 ≡
          nm.value * 10 ^ rest.length [MOD M32] :=
        (Nat.mod_modEq _ _).trans (Nat.ModEq.mul_left _ (Nat.mod_modEq _ _))
      exact Nat.ModEq.add_left acc h1
    have hacc' : u32add acc (u32mul nm.value (u32pow 10 (len - i - 1))) < M32 := by
      unfold u32add
      exact Nat.mod_lt _ hM
    calc valueGo len i acc (nm :: rest)
        = valueGo len (i + 1)
            (u32add acc (u32mul nm.value (u32pow 10 (len - i - 1)))) rest := by
          simp [valueGo]
      _ = ((acc + nm.value * 10 ^ rest.length) % M32 +
            positionalValue (rest.map Numeral.value)) % M32 := by
          rw [ih _ _ _ (by omega) hacc', hstep]
      _ = (acc + positionalValue ((nm :: rest).map Numeral.value)) % M32 := by
          have h2 : (acc + nm.value * 10 ^ rest.length) % M32 +
              positionalValue (rest.map Numeral.value) ≡
              acc + (nm.value * 10 ^ rest.length +
                positionalValue (rest.map Numeral.value)) [MOD M32] := by
            have h0 := Nat.ModEq.add_right
              (positionalValue (rest.map Numeral.value))
              (Nat.mod_modEq (acc + nm.value * 10 ^ rest.length) M32)
            simpa [Nat.add_assoc] using h0
          have h3 : positionalValue ((nm :: rest).map Numeral.value) =
              nm.value * 10 ^ rest.length + positionalValue (rest.map Numeral.value) := by
            simp [positionalValue, List.length_map]
          rw [h3]
          exact h2

/-- C7 (amended): `Number::value` uses `u32` arithmetic, so it equals the
standard positional decimal evaluation `Σ dᵢ × 10 ^ (k - 1 - i)` reduced
modulo `2 ^ 32`, and it equals the positional evaluation exactly whenever
that value fits in a `u32` (in particular for every Number of at most nine
digits, e.g. digits 4, 6, 7, 8, 9 give 46789). -/
theorem value_positional_mod (n : Number) :
    Number.value n = positionalValue (n.map Numeral.value) % M32 ∧
      (positionalValue (n.map Numeral.value) < M32 →
        Number.value n = positionalValue (n.map Numeral.value)) := by
  have h := valueGo_eq n n.length 0 0 (by omega) (by decide)
  have h1 : Number.value n = positionalValue (n.map Numeral.value) % M32 := by
    simpa [Number.value] using h
  exact ⟨h1, fun hlt => by rw [h1, Nat.mod_eq_of_lt hlt]⟩

/-- C7 witness: the five-digit example `46789` is computed exactly. -/
theorem value_positional_mod_witness :
    Number.value [⟨⟨2, 3⟩, 4⟩, ⟨⟨2, 4⟩, 6⟩, ⟨⟨2, 5⟩, 7⟩, ⟨⟨2, 6⟩, 8⟩, ⟨⟨2, 7⟩, 9⟩] =
      positionalValue (List.map Numeral.value
        [⟨⟨2, 3⟩, 4⟩, ⟨⟨2, 4⟩, 6⟩, ⟨⟨2, 5⟩, 7⟩, ⟨⟨2, 6⟩, 8⟩, ⟨⟨2, 7⟩, 9⟩]) :=
  (value_positional_mod _).2 (by decide)

/-- The mutable-tally fold of `is_feasible` computes the three per-color
totals of a round reduced modulo `2 ^ 64` (wrapping `usize`
accumulation). -/
theorem roundTotals_eq (round : Round) :
    roundTotals round =
      (colorTotal Color.Blue round % M64, colorTotal Color.Green round % M64,
        colorTotal Color.Red round % M64) := by
  have hM : 0 < M64 := by decide
  have haux : ∀ (l : List ColorCount) (a b c : Nat), a < M64 → b < M64 → c < M64 →
      l.foldl
        (fun acc cc =>
          match cc.color with
          | Color.Blue => (u64add acc.1 cc.count, acc.2.1, acc.2.2)
          | Color.Green => (acc.1, u64add acc.2.1 cc.count, acc.2.2)
          | Color.Red => (acc.1, acc.2.1, u64add acc.2.2 cc.count))
        (a, b, c) =
      ((a + colorTotal Color.Blue l) % M64, (b + colorTotal Color.Green l) % M64,
        (c + colorTotal Color.Red l) % M64) := by
    intro l
    induction l with
    | nil =>
      intro a b c h1 h2 h3
      simp [colorTotal, Nat.mod_eq_of_lt h1, Nat.mod_eq_of_lt h2,
        Nat.mod_eq_of_lt h3]
    | cons cc rest ih =>
      intro a b c h1 h2 h3
      obtain ⟨color, count⟩ := cc
      cases color
      case Blue =>
        have hih := ih (u64add a count) b c (Nat.mod_lt _ hM) h2 h3
        rw [List.foldl_cons]
        refine hih.trans ?_
        have hB : colorTotal Color.Blue (⟨Color.Blue, count⟩ :: rest) =
            count + colorTotal Color.Blue rest := by
          simp [colorTotal, List.filter_cons]
        have hG : colorTotal Color.Green (⟨Color.Blue, count⟩ :: rest) =
            colorTotal Color.Green rest := by
          simp [colorTotal, List.filter_cons]
        have hR : colorTotal Color.Red (⟨Color.Blue, count⟩ :: rest) =
            colorTotal Color.Red rest := by
          simp [colorTotal, List.filter_cons]
        rw [hB, hG, hR]
        simp only [u64add]
        rw [Nat.mod_add_mod, Nat.add_assoc]
      case Green =>
        have hih := ih a (u64add b count) c h1 (Nat.mod_lt _ hM) h3
        rw [List.foldl_cons]
        refine hih.trans ?_
        have hB : colorTotal Color.Blue (⟨Color.Green, count⟩ :: rest) =
            colorTotal Color.Blue rest := by
          simp [colorTotal, List.filter_cons]
        have hG : colorTotal Color.Green (⟨Color.Green, count⟩ :: rest) =
            count + colorTotal Color.Green rest := by
          simp [colorTotal, List.filter_cons]
        have hR : colorTotal Color.Red (⟨Color.Green, count⟩ :: rest) =
            colorTotal Color.Red rest := by
          simp [colorTotal, List.filter_cons]
        rw [hB, hG, hR]
        simp only [u64add]
        rw [Nat.mod_add_mod, Nat.add_assoc]
      case Red =>
        have hih := ih a b (u64add c count) h1 h2 (Nat.mod_lt _ hM)
        rw [List.foldl_cons]
        refine hih.trans ?_
        have hB : colorTotal Color.Blue (⟨Color.Red, count⟩ :: rest) =
            colorTotal Color.Blue rest := by
          simp [colorTotal, List.filter_cons]
        have hG : colorTotal Color.Green (⟨Color.Red, count⟩ :: rest) =
            colorTotal Color.Green rest := by
          simp [colorTotal, List.filter_cons]
        have hR : colorTotal Color.Red (⟨Color.Red, count⟩ :: rest) =
            count + colorTotal Color.Red rest := by
          simp [colorTotal, List.filter_cons]
        rw [hB, hG, hR]
        simp only [u64add]
        rw [Nat.mod_add_mod, Nat.add_assoc]
  have h := haux round 0 0 0 hM hM hM
  simpa [roundTotals] using h

/-- C10 counterexample: a round of blue counts `2^63 - 1`, `2^63 - 1`, `16`
wraps to a tally of 14 in the `usize` accumulation, so `is_feasible` returns
`true` although the per-color blue total is `2^64 + 14`, far above 14 — the
claimed exact-total iff fails on the program. -/
theorem is_feasible_usize_wrap_ce :
    is_feasible ⟨1, [[⟨Color.Blue, 9223372036854775807⟩,
        ⟨Color.Blue, 9223372036854775807⟩, ⟨Color.Blue, 16⟩]]⟩ = true ∧
      colorTotal Color.Blue [⟨Color.Blue, 9223372036854775807⟩,
        ⟨Color.Blue, 9223372036854775807⟩, ⟨Color.Blue, 16⟩] =
        18446744073709551630 ∧
      ¬(18446744073709551630 : Nat) ≤ 14 := by
  refine ⟨by decide, by decide, by decide⟩

/-- C10 (amended): `is_feasible` holds exactly when every round's per-color
totals (summing repeated entries of one color) *reduced modulo `2 ^ 64`*
(the wrapping `usize` accumulation; a debug build panics at the same inputs)
satisfy `blue ≤ 14`, `green ≤ 13` and `red ≤ 12`; for games whose per-color
round totals all fit in a `usize` this is the exact-total characterization;
and the fold in `main` computes the sum of the ids of exactly the feasible
games, modulo `2 ^ 64`. -/
theorem is_feasible_characterization_amended :
    (∀ g : Game,
      (is_feasible g = true ↔
        ∀ round ∈ g.rounds,
          colorTotal Color.Blue round % M64 ≤ 14 ∧
            colorTotal Color.Green round % M64 ≤ 13 ∧
            colorTotal Color.Red round % M64 ≤ 12)) ∧
    (∀ g : Game,
      (∀ round ∈ g.rounds, colorTotal Color.Blue round < M64 ∧
        colorTotal Color.Green round < M64 ∧ colorTotal Color.Red round < M64) →
      (is_feasible g = true ↔
        ∀ round ∈ g.rounds,
          colorTotal Color.Blue round ≤ 14 ∧ colorTotal Color.Green round ≤ 13 ∧
            colorTotal Color.Red round ≤ 12)) ∧
    (∀ gs : List Game,
      sumFeasibleIds gs =
        ((gs.filter (fun g => is_feasible g)).map Game.id).sum % M64) := by
  have hM : 0 < M64 := by decide
  have hfirst : ∀ g : Game,
      is_feasible g = true ↔
        ∀ round ∈ g.rounds,
          colorTotal Color.Blue round % M64 ≤ 14 ∧
            colorTotal Color.Green round % M64 ≤ 13 ∧
            colorTotal Color.Red round % M64 ≤ 12 := by
    intro g
    unfold is_feasible
    rw [List.all_eq_true]
    apply forall_congr'
    intro round
    apply imp_congr_right
    intro _
    rw [roundTotals_eq]
    simp [and_assoc]
  refine ⟨hfirst, ?_, ?_⟩
  · intro g hlt
    rw [hfirst g]
    constructor
    · intro h round hr
      obtain ⟨h1, h2, h3⟩ := h round hr
      obtain ⟨l1, l2, l3⟩ := hlt round hr
      rw [Nat.mod_eq_of_lt l1] at h1
      rw [Nat.mod_eq_of_lt l2] at h2
      rw [Nat.mod_eq_of_lt l3] at h3
      exact ⟨h1, h2, h3⟩
    · intro h round hr
      obtain ⟨h1, h2, h3⟩ := h round hr
      obtain ⟨l1, l2, l3⟩ := hlt round hr
      exact ⟨by rw [Nat.mod_eq_of_lt l1]; exact h1,
        by rw [Nat.mod_eq_of_lt l2]; exact h2,
        by rw [Nat.mod_eq_of_lt l3]; exact h3⟩
  · have haux : ∀ (gs : List Game) (acc : Nat), acc < M64 →
        gs.foldl (fun acc g => if is_feasible g then u64add acc g.id else acc) acc =
          (acc + ((gs.filter (fun g => is_feasible g)).map Game.id).sum) % M64 := by
      intro gs
      induction gs with
      | nil =>
        intro acc hacc
        simp [Nat.mod_eq_of_lt hacc]
      | cons g rest ih =>
        intro acc hacc
        by_cases hg : is_feasible g = true
        · rw [List.foldl_cons, if_pos hg]
          refine (ih (u64add acc g.id) (Nat.mod_lt _ hM)).trans ?_
          rw [List.filter_cons_of_pos hg]
          simp only [List.map_cons, List.sum_cons, u64add]
          rw [Nat.mod_add_mod, Nat.add_assoc]
        · rw [List.foldl_cons, if_neg hg]
          rw [ih acc hacc, List.filter_cons_of_neg hg]
    intro gs
    have h := haux gs 0 hM
    simpa [sumFeasibleIds] using h

/-- C10 witness: a concrete one-game instance of the id-summing part. -/
theorem is_feasible_characterization_amended_witness :
    sumFeasibleIds [⟨7, [[⟨Color.Blue, 3⟩, ⟨Color.Red, 4⟩]]⟩] =
      ((List.filter (fun g => is_feasible g)
          [⟨7, [[⟨Color.Blue, 3⟩, ⟨Color.Red, 4⟩]]⟩]).map Game.id).sum % M64 :=
  is_feasible_characterization_amended.2.2 _

/-- Every member of a contiguous run sits at column `c0 + j` of row `r` for
some index `j` below the run length. -/
theorem isRunFrom_mem {r c0 : Nat} {ns : List Numeral}
    (h : isRunFrom r c0 ns = true) {nm : Numeral} (hmem : nm ∈ ns) :
    ∃ j, j < ns.length ∧ nm.position = ⟨r, c0 + j⟩ := by
  induction ns generalizing c0 with
  | nil => simp at hmem
  | cons a l ih =>
    simp only [isRunFrom, Bool.and_eq_true, beq_iff_eq] at h
    rcases List.mem_cons.mp hmem with rfl | hmem'
    · exact ⟨0, by simp, by simpa using h.1⟩
    · obtain ⟨j, hj, hp⟩ := ih h.2 hmem'
      refine ⟨j + 1, by simp [Nat.succ_lt_succ hj], ?_⟩
      rw [hp]
      have : c0 + 1 + j = c0 + (j + 1) := by omega
      rw [this]

/-- C2: for a (well-formed, per the data-model invariant) Number containing a
numeral at row 0 or at column 0, `Number::border` hits the unchecked
`row - 1` or `col - 1` on a zero index and panics (modelled as `none`)
instead of returning a border set. -/
theorem border_underflow_row0_col0 (n : Number) (r c0 : Nat)
    (hrun : isRunFrom r c0 n = true) (hne : n ≠ [])
    (h0 : ∃ nm ∈ n, nm.position.row = 0 ∨ nm.position.col = 0) :
    Number.border n = none := by
  obtain ⟨nm0, rest, rfl⟩ : ∃ nm0 rest, n = nm0 :: rest := by
    cases n with
    | nil => exact absurd rfl hne
    | cons a l => exact ⟨a, l, rfl⟩
  have hhead : nm0.position = ⟨r, c0⟩ := by
    simp only [isRunFrom, Bool.and_eq_true, beq_iff_eq] at hrun
    exact hrun.1
  have hzero : r = 0 ∨ c0 = 0 := by
    obtain ⟨nm, hmem, hrc⟩ := h0
    obtain ⟨j, hj, hpos⟩ := isRunFrom_mem hrun hmem
    rcases hrc with h | h
    · left
      rw [hpos] at h
      simpa using h
    · right
      rw [hpos] at h
      simp only at h
      omega
  rcases hzero with h | h
  · subst h
    simp [Number.border, borderGo, borderContrib, hhead, csub]
  · subst h
    cases hr : csub r with
    | none => simp [Number.border, borderGo, borderContrib, hhead, csub, hr]
    | some ru => simp [Number.border, borderGo, borderContrib, hhead, csub, hr]

/-- C2 witness: a single-numeral Number at row 0 panics. -/
theorem border_underflow_witness : Number.border [⟨⟨0, 5⟩, 3⟩] = none :=
  border_underflow_row0_col0 [⟨⟨0, 5⟩, 3⟩] 0 5 (by decide) (by decide) (by decide)

/-- Appending the next digit cell (at the column just past the run) keeps a
contiguous run contiguous. -/
theorem isRunFrom_append (r d : Nat) :
    ∀ (ns : List Numeral) (c0 : Nat), isRunFrom r c0 ns = true →
      isRunFrom r c0 (ns ++ [⟨⟨r, c0 + ns.length⟩, d⟩]) = true := by
  intro ns
  induction ns with
  | nil =>
    intro c0 _
    simp [isRunFrom]
  | cons a l ih =>
    intro c0 h
    simp only [isRunFrom, Bool.and_eq_true, beq_iff_eq] at h
    have he : c0 + (a :: l).length = c0 + 1 + l.length := by
      simp only [List.length_cons]
      omega
    rw [List.cons_append]
    simp only [isRunFrom, Bool.and_eq_true, beq_iff_eq]
    exact ⟨h.1, by rw [he]; exact ih (c0 + 1) h.2⟩

/-- Column-loop invariant of `parse_numbers`: if all sealed Numbers are
well-formed and the pending buffer is a contiguous run ending at the cursor
column, then every Number sealed by the rest of the row is well-formed and
the row ends with an empty buffer. -/
theorem scanCols_wf (row : Nat) :
    ∀ (cs : List Char) (col : Nat) (numbers : List Number) (current : List Numeral),
      (∀ n ∈ numbers, numberWF n) →
      (current = [] ∨
        ∃ c0, isRunFrom row c0 current = true ∧ c0 + current.length = col) →
      (∀ n ∈ (scanCols row col cs numbers current).1, numberWF n) ∧
        (scanCols row col cs numbers current).2 = [] := by
  intro cs
  induction cs with
  | nil =>
    intro col numbers current hnums hcur
    cases current with
    | nil => simpa [scanCols] using hnums
    | cons a l =>
      have hrun : ∃ c0, isRunFrom row c0 (a :: l) = true := by
        rcases hcur with h | ⟨c0, hr, _⟩
        · exact absurd h (by simp)
        · exact ⟨c0, hr⟩
      simp only [scanCols, List.isEmpty_cons, Bool.false_eq_true, if_false]
      refine ⟨?_, by simp⟩
      intro n hn
      rcases List.mem_append.mp hn with h | h
      · exact hnums n h
      · obtain ⟨c0, hr⟩ := hrun
        rcases List.mem_singleton.mp h with rfl
        exact ⟨by simp, row, c0, hr⟩
  | cons ch rest ih =>
    intro col numbers current hnums hcur
    cases hd : toDigit ch with
    | some d =>
      simp only [scanCols, hd]
      refine ih (col + 1) numbers _ hnums (Or.inr ?_)
      rcases hcur with rfl | ⟨c0, hr, hlen⟩
      · exact ⟨col, by simp [isRunFrom], by simp⟩
      · refine ⟨c0, ?_, by simp only [List.length_append, List.length_singleton]; omega⟩
        have happ := isRunFrom_append row d current c0 hr
        rw [hlen] at happ
        exact happ
    | none =>
      cases current with
      | nil =>
        simp only [scanCols, hd, List.isEmpty_nil, if_true]
        exact ih (col + 1) numbers [] hnums (Or.inl rfl)
      | cons a l =>
        simp only [scanCols, hd, List.isEmpty_cons, Bool.false_eq_true, if_false]
        refine ih (col + 1) _ [] ?_ (Or.inl rfl)
        intro n hn
        rcases List.mem_append.mp hn with h | h
        · exact hnums n h
        · rcases List.mem_singleton.mp h with rfl
          rcases hcur with h' | ⟨c0, hr, _⟩
          · exact absurd h' (by simp)
          · exact ⟨by simp, row, c0, hr⟩

/-- Row-loop invariant of `parse_numbers`: starting each row with an empty
buffer, every sealed Number stays well-formed. -/
theorem scanRows_wf :
    ∀ (rows : List (List Char)) (row : Nat) (numbers : List Number),
      (∀ n ∈ numbers, numberWF n) →
      ∀ n ∈ (scanRows row rows numbers []).1, numberWF n := by
  intro rows
  induction rows with
  | nil =>
    intro row numbers h
    simpa [scanRows] using h
  | cons line rest ih =>
    intro row numbers h
    have hc := scanCols_wf row line 0 numbers [] h (Or.inl rfl)
    simp only [scanRows]
    rw [hc.2]
    exact ih (row + 1) _ hc.1

/-- C8: every Number produced by `parse_numbers` is non-empty and its
numerals form a contiguous same-row run with strictly increasing columns
(digit runs are sealed at the first non-digit or at end of row); in
particular a trailing digit run at end of row is emitted, as on the one-row
grid `"12"`. -/
theorem parse_numbers_run_invariant :
    (∀ input, ∀ n ∈ parse_numbers input, numberWF n) ∧
      parse_numbers [['1', '2']] = [[⟨⟨0, 0⟩, 1⟩, ⟨⟨0, 1⟩, 2⟩]] := by
  constructor
  · intro input n hn
    exact scanRows_wf input 0 [] (by simp) n hn
  · decide

/-- C8 witness: the Number parsed from the one-row grid `"12"` is
well-formed. -/
theorem parse_numbers_run_invariant_witness :
    numberWF [⟨⟨0, 0⟩, 1⟩, ⟨⟨0, 1⟩, 2⟩] :=
  parse_numbers_run_invariant.1 [['1', '2']] _ (by decide)

/-- Rust `HashSet::insert` membership. -/
theorem mem_insertPos (l : List Position) (q p : Position) :
    p ∈ insertPos l q ↔ p ∈ l ∨ p = q := by
  unfold insertPos
  by_cases h : q ∈ l
  · simp only [if_pos h]
    constructor
    · exact Or.inl
    · rintro (hp | rfl)
      · exact hp
      · exact h
  · simp [if_neg h]

/-- Membership in a fold of `HashSet::insert`s is membership in the
accumulator or in the inserted batch. -/
theorem mem_foldl_insertPos :
    ∀ (ps acc : List Position) (p : Position),
      p ∈ ps.foldl insertPos acc ↔ p ∈ acc ∨ p ∈ ps := by
  intro ps
  induction ps with
  | nil =>
    intro acc p
    simp
  | cons q ps ih =>
    intro acc p
    rw [List.foldl_cons, ih, mem_insertPos]
    simp only [List.mem_cons]
    tauto

/-- When the checked subtractions succeed (row at least 1; column at least 1
for the first numeral), `borderContrib` produces exactly
`contribPositions`. -/
theorem borderContrib_eq (len i : Nat) (p : Position) (hr : 1 ≤ p.row)
    (hc : i = 0 → 1 ≤ p.col) :
    borderContrib len i p = some (contribPositions len i p) := by
  have hcr : csub p.row = some (p.row - 1) := by
    unfold csub
    rw [if_neg (by omega)]
  by_cases h0 : i = 0
  · subst h0
    have hc1 : 1 ≤ p.col := hc rfl
    have hcc : csub p.col = some (p.col - 1) := by
      unfold csub
      rw [if_neg (by omega)]
    simp [borderContrib, contribPositions, hcr, hcc]
  · by_cases hl : i = len - 1
    · subst hl
      simp [borderContrib, contribPositions, if_neg h0, hcr]
    · simp [borderContrib, contribPositions, if_neg h0, if_neg hl, hcr]

/-- Loop invariant of `Number::border` over a contiguous run with row at
least 1 (and first column at least 1 when the loop starts at index 0): the
loop succeeds and accumulates exactly the union of the per-index
contributions. -/
theorem borderGo_run (r : Nat) (hr : 1 ≤ r) :
    ∀ (rest : List Numeral) (len i c : Nat) (acc : List Position),
      isRunFrom r c rest = true → (i = 0 → 1 ≤ c) →
      ∃ out, borderGo len i acc rest = some out ∧
        ∀ p, p ∈ out ↔ p ∈ acc ∨
          ∃ j, j < rest.length ∧ p ∈ contribPositions len (i + j) ⟨r, c + j⟩ := by
  intro rest
  induction rest with
  | nil =>
    intro len i c acc _ _
    exact ⟨acc, rfl, by simp⟩
  | cons nm rest ih =>
    intro len i c acc hrun hc
    simp only [isRunFrom, Bool.and_eq_true, beq_iff_eq] at hrun
    have hcontrib : borderContrib len i nm.position =
        some (contribPositions len i nm.position) := by
      apply borderContrib_eq
      · rw [hrun.1]
        exact hr
      · intro h0
        rw [hrun.1]
        exact hc h0
    obtain ⟨out, hout, hmem⟩ := ih len (i + 1) (c + 1)
      ((contribPositions len i nm.position).foldl insertPos acc) hrun.2 (by omega)
    refine ⟨out, ?_, ?_⟩
    · simp only [borderGo, hcontrib]
      exact hout
    · intro p
      rw [hmem p, mem_foldl_insertPos]
      constructor
      · rintro ((h | h) | ⟨j, hj, hp⟩)
        · exact Or.inl h
        · refine Or.inr ⟨0, by simp, ?_⟩
          simpa [hrun.1] using h
        · refine Or.inr ⟨j + 1, by simp only [List.length_cons]; omega, ?_⟩
          have e1 : i + (j + 1) = i + 1 + j := by omega
          have e2 : c + (j + 1) = c + 1 + j := by omega
          rw [e1, e2]
          exact hp
      · rintro (h | ⟨j, hj, hp⟩)
        · exact Or.inl (Or.inl h)
        · cases j with
          | zero =>
            refine Or.inl (Or.inr ?_)
            simpa [hrun.1] using hp
          | succ j =>
            simp only [List.length_cons] at hj
            refine Or.inr ⟨j, by omega, ?_⟩
            have e1 : i + (j + 1) = i + 1 + j := by omega
            have e2 : c + (j + 1) = c + 1 + j := by omega
            rw [e1, e2] at hp
            exact hp

/-- Geometry: for a run of length at least 2 the union of the per-index
contributions is exactly the 8-connected bounding-box border minus the run's
own cells. -/
theorem contrib_union_eq_box (r c0 k : Nat) (hr : 1 ≤ r) (hc : 1 ≤ c0)
    (hk : 2 ≤ k) (p : Position) :
    (∃ j, j < k ∧ p ∈ contribPositions k j ⟨r, c0 + j⟩) ↔
      inBoxBorder r c0 (c0 + k - 1) p := by
  obtain ⟨pr, pc⟩ := p
  constructor
  · rintro ⟨j, hj, hp⟩
    by_cases h0 : j = 0
    · subst h0
      simp [contribPositions, Position.mk.injEq] at hp
      simp [inBoxBorder]
      omega
    · by_cases hl : j = k - 1
      · subst hl
        simp [contribPositions, h0, Position.mk.injEq] at hp
        simp [inBoxBorder]
        omega
      · simp [contribPositions, h0, hl, Position.mk.injEq] at hp
        simp [inBoxBorder]
        omega
  · intro hb
    simp [inBoxBorder] at hb
    by_cases hpcl : pc ≤ c0
    · refine ⟨0, by omega, ?_⟩
      simp [contribPositions, Position.mk.injEq]
      omega
    · by_cases hpcr : c0 + k - 1 ≤ pc
      · refine ⟨k - 1, by omega, ?_⟩
        have h0 : ¬(k - 1 = 0) := by omega
        simp [contribPositions, h0, Position.mk.injEq]
        omega
      · refine ⟨pc - c0, by omega, ?_⟩
        have h0 : ¬(pc - c0 = 0) := by omega
        have hl : ¬(pc - c0 = k - 1) := by omega
        simp [contribPositions, h0, hl, Position.mk.injEq]
        omega

/-- C1 (amended): for a Number occupying columns `[c0, c0+k-1]` of row `r`
with `r ≥ 1`, `c0 ≥ 1`, the incrementally computed border equals the
8-connected bounding-box border minus the Number's own cells whenever the
Number has at least two numerals; for a single-numeral Number (`k = 1`) the
`else if` chain runs only the first-numeral branch, so the border is exactly
the five left-side neighbors (above, below, left, and the two left
diagonals), not the full 8-neighborhood. -/
theorem border_boxBorder_amended (n : Number) (r c0 : Nat)
    (hrun : isRunFrom r c0 n = true) (hr : 1 ≤ r) (hc : 1 ≤ c0) :
    (2 ≤ n.length → ∃ out, Number.border n = some out ∧
      ∀ p, p ∈ out ↔ inBoxBorder r c0 (c0 + n.length - 1) p) ∧
    (n.length = 1 → ∃ out, Number.border n = some out ∧
      ∀ p, p ∈ out ↔ p ∈ [(⟨r - 1, c0⟩ : Position), ⟨r + 1, c0⟩,
        ⟨r - 1, c0 - 1⟩, ⟨r + 1, c0 - 1⟩, ⟨r, c0 - 1⟩]) := by
  obtain ⟨out, hout, hmem⟩ :=
    borderGo_run r hr n n.length 0 c0 [] hrun (fun _ => hc)
  constructor
  · intro hk
    refine ⟨out, hout, ?_⟩
    intro p
    rw [hmem p]
    simp only [List.not_mem_nil, false_or]
    rw [← contrib_union_eq_box r c0 n.length hr hc hk p]
    constructor
    · rintro ⟨j, hj, hp⟩
      exact ⟨j, hj, by simpa using hp⟩
    · rintro ⟨j, hj, hp⟩
      exact ⟨j, hj, by simpa using hp⟩
  · intro hk
    refine ⟨out, hout, ?_⟩
    intro p
    rw [hmem p]
    simp only [List.not_mem_nil, false_or]
    constructor
    · rintro ⟨j, hj, hp⟩
      rw [hk] at hj
      have hj0 : j = 0 := by omega
      subst hj0
      simpa [contribPositions, hk] using hp
    · intro hp
      refine ⟨0, by omega, ?_⟩
      simpa [contribPositions, hk] using hp

/-- C1 witness: the two-digit run `46` at row 1, columns 1 and 2. -/
theorem border_boxBorder_amended_witness :
    (2 ≤ ([⟨⟨1, 1⟩, 4⟩, ⟨⟨1, 2⟩, 6⟩] : Number).length →
      ∃ out, Number.border [⟨⟨1, 1⟩, 4⟩, ⟨⟨1, 2⟩, 6⟩] = some out ∧
        ∀ p, p ∈ out ↔
          inBoxBorder 1 1 (1 + ([⟨⟨1, 1⟩, 4⟩, ⟨⟨1, 2⟩, 6⟩] : Number).length - 1) p) ∧
    (([⟨⟨1, 1⟩, 4⟩, ⟨⟨1, 2⟩, 6⟩] : Number).length = 1 →
      ∃ out, Number.border [⟨⟨1, 1⟩, 4⟩, ⟨⟨1, 2⟩, 6⟩] = some out ∧
        ∀ p, p ∈ out ↔ p ∈ [(⟨1 - 1, 1⟩ : Position), ⟨1 + 1, 1⟩,
          ⟨1 - 1, 1 - 1⟩, ⟨1 + 1, 1 - 1⟩, ⟨1, 1 - 1⟩]) :=
  border_boxBorder_amended [⟨⟨1, 1⟩, 4⟩, ⟨⟨1, 2⟩, 6⟩] 1 1 (by decide) (by decide)
    (by decide)

/-- Byte length of a cons cell. -/
theorem byteLen_cons (c : Char) (s : List Char) :
    byteLen (c :: s) = c.utf8Size + byteLen s := by
  simp [byteLen]

/-- UTF-8 never encodes a character in fewer bytes than one, so the byte
length dominates the character count. -/
theorem length_le_byteLen : ∀ s : List Char, s.length ≤ byteLen s := by
  intro s
  induction s with
  | nil => simp [byteLen]
  | cons c cs ih =>
    rw [byteLen_cons]
    have := Char.utf8Size_pos c
    simp only [List.length_cons]
    omega

/-- A string whose byte length equals its character count is made of
single-byte (ASCII) characters only. -/
theorem ascii_of_byteLen_eq : ∀ s : List Char, byteLen s = s.length →
    ∀ c ∈ s, c.utf8Size = 1 := by
  intro s
  induction s with
  | nil => simp
  | cons c cs ih =>
    intro h x hx
    rw [byteLen_cons] at h
    simp only [List.length_cons] at h
    have h1 := Char.utf8Size_pos c
    have h2 := length_le_byteLen cs
    rcases List.mem_cons.mp hx with rfl | hx'
    · omega
    · exact ih (by omega) x hx'

/-- An ASCII character occupies one UTF-8 byte. -/
theorem utf8Size_eq_one_of_ascii {c : Char} (h : c.toNat ≤ 127) :
    c.utf8Size = 1 := by
  have hv : c.val ≤ (0x7F : UInt32) := by
    rw [UInt32.le_def, BitVec.le_def]
    exact h
  simp [Char.utf8Size, hv]

/-- On an all-ASCII string, slicing at byte index `i ≤ length` is exact and
never panics. -/
theorem byteDrop_ascii : ∀ (s : List Char), (∀ c ∈ s, c.utf8Size = 1) →
    ∀ i, i ≤ s.length → byteDrop s i = some (s.drop i) := by
  intro s
  induction s with
  | nil =>
    intro _ i hi
    simp only [List.length_nil, Nat.le_zero] at hi
    subst hi
    rfl
  | cons c cs ih =>
    intro h i hi
    cases i with
    | zero => rfl
    | succ i =>
      have hc : c.utf8Size = 1 := h c (List.mem_cons_self c cs)
      simp only [byteDrop, hc, List.drop_succ_cons]
      rw [if_pos (by omega)]
      have : i + 1 - 1 = i := by omega
      rw [this]
      exact ih (fun x hx => h x (List.mem_cons_of_mem c hx)) i
        (by simpa using Nat.lt_succ_iff.mp (Nat.lt_of_succ_le hi))

/-- A successful byte-index slice keeps exactly the bytes past the index. -/
theorem byteLen_byteDrop : ∀ (s : List Char) (i : Nat) (t : List Char),
    byteDrop s i = some t → byteLen t = byteLen s - i := by
  intro s
  induction s with
  | nil =>
    intro i t h
    cases i with
    | zero =>
      cases h
      simp
    | succ i => cases h
  | cons c cs ih =>
    intro i t h
    cases i with
    | zero =>
      cases h
      simp
    | succ i =>
      simp only [byteDrop] at h
      by_cases hle : c.utf8Size ≤ i + 1
      · rw [if_pos hle] at h
        have := ih (i + 1 - c.utf8Size) t h
        rw [byteLen_cons]
        omega
      · rw [if_neg hle] at h
        cases h

/-- Rust `starts_with` splits the string after the key. -/
theorem startsWithKey_append : ∀ (k s : List Char),
    startsWithKey s k = true → ∃ t, s = k ++ t := by
  intro k
  induction k with
  | nil =>
    intro s _
    exact ⟨s, rfl⟩
  | cons x ks ih =>
    intro s h
    cases s with
    | nil => cases h
    | cons c cs =>
      simp only [startsWithKey, Bool.and_eq_true, beq_iff_eq] at h
      obtain ⟨t, ht⟩ := ih cs h.2
      exact ⟨t, by rw [h.1, ht]; rfl⟩

/-- The nine table entries: non-empty all-ASCII keys of length at least two
made of non-digit letters, each mapped to a digit character. -/
theorem wordMap_facts :
    ∀ kv ∈ wordMap, kv.1 ≠ [] ∧ 2 ≤ kv.1.length ∧ kv.2.isDigit = true ∧
      (∀ c ∈ kv.1, c.isDigit = false) ∧ ∀ c ∈ kv.1, c.utf8Size = 1 := by
  decide

/-- All-ASCII strings have byte length equal to character count. -/
theorem byteLen_eq_length : ∀ s : List Char, (∀ c ∈ s, c.utf8Size = 1) →
    byteLen s = s.length := by
  intro s
  induction s with
  | nil => simp [byteLen]
  | cons c cs ih =>
    intro h
    rw [byteLen_cons, h c (List.mem_cons_self c cs),
      ih (fun x hx => h x (List.mem_cons_of_mem c hx))]
    simp only [List.length_cons]
    omega

/-- If an iteration of the `replace_strings` loop is entered (`i` below the
byte length) and the whole call returns without panicking, then the string
is all-ASCII: the loop can only terminate through the final `+1` step at the
last byte, whose `chars().nth(i)` read forces the character count to reach
the byte count. -/
theorem replaceGo_some_ascii (line : List Char) :
    ∀ (fuel i : Nat), i < byteLen line →
      (replaceGo wordMap line fuel i).isSome = true →
      byteLen line = line.length := by
  intro fuel
  induction fuel with
  | zero =>
    intro i hi h
    simp [replaceGo, if_pos hi] at h
  | succ fuel ih =>
    intro i hi h
    simp only [replaceGo, if_pos hi] at h
    split at h
    · simp at h
    · next suffix hbd =>
      split at h
      · simp at h
      · next c hget =>
        have hilen : i < line.length := by
          by_contra hcon
          rw [List.get?_eq_none.mpr (by omega)] at hget
          cases hget
        have hble := length_le_byteLen line
        by_cases hdig : c.isDigit
        · rw [if_pos hdig, Option.isSome_map'] at h
          by_cases hi1 : i + 1 < byteLen line
          · exact ih (i + 1) hi1 h
          · omega
        · rw [if_neg hdig] at h
          split at h
          · next kv hfm =>
            rw [Option.isSome_map'] at h
            simp only [findMatch] at hfm
            have hkv : kv ∈ wordMap := List.mem_of_find?_eq_some hfm
            have hsw : startsWithKey suffix kv.1 = true := by
              have h0 := List.find?_some hfm
              simpa using h0
            obtain ⟨t, rfl⟩ := startsWithKey_append kv.1 suffix hsw
            have hfacts := wordMap_facts kv hkv
            have hklen : byteLen kv.1 = kv.1.length :=
              byteLen_eq_length kv.1 hfacts.2.2.2.2
            have hsuf : byteLen (kv.1 ++ t) = byteLen line - i :=
              byteLen_byteDrop line i _ hbd
            have hsplit : byteLen (kv.1 ++ t) = byteLen kv.1 + byteLen t := by
              simp [byteLen]
            have hi' : i + kv.1.length - 1 < byteLen line := by
              have h2 := hfacts.2.1
              omega
            exact ih (i + kv.1.length - 1) hi' h
          · next hfm =>
            by_cases hi1 : i + 1 < byteLen line
            · exact ih (i + 1) hi1 h
            · omega

/-- On an all-ASCII line the loop never panics: with enough fuel for the
remaining bytes every branch returns `some`. -/
theorem replaceGo_ascii_total (line : List Char)
    (hascii : ∀ c ∈ line, c.utf8Size = 1) :
    ∀ (fuel i : Nat), byteLen line ≤ i + fuel →
      ∃ out, replaceGo wordMap line fuel i = some out := by
  have hlen : byteLen line = line.length := byteLen_eq_length line hascii
  intro fuel
  induction fuel with
  | zero =>
    intro i hfi
    refine ⟨[], ?_⟩
    simp only [replaceGo]
    rw [if_neg (by omega)]
  | succ fuel ih =>
    intro i hfi
    by_cases hi : i < byteLen line
    · have hbd : byteDrop line i = some (line.drop i) :=
        byteDrop_ascii line hascii i (by omega)
      have hget : line.get? i = some (line.get ⟨i, by omega⟩) :=
        List.get?_eq_get (by omega)
      simp only [replaceGo, if_pos hi, hbd, hget]
      by_cases hdig : (line.get ⟨i, by omega⟩).isDigit
      · rw [if_pos hdig]
        obtain ⟨out, hout⟩ := ih (i + 1) (by omega)
        exact ⟨_, by rw [hout]; rfl⟩
      · rw [if_neg hdig]
        cases hfm : findMatch wordMap (line.drop i) with
        | some kv =>
          have hkv : kv ∈ wordMap := by
            simp only [findMatch] at hfm
            exact List.mem_of_find?_eq_some hfm
          have hklen := (wordMap_facts kv hkv).2.1
          obtain ⟨out, hout⟩ := ih (i + kv.1.length - 1) (by omega)
          exact ⟨kv.2 :: out, by simp [hout]⟩
        | none =>
          exact ih (i + 1) (by omega)
    · refine ⟨[], ?_⟩
      simp only [replaceGo]
      rw [if_neg hi]

/-- C5 (amended): `replace_strings` is total on strings of ASCII characters
(it returns a string, possibly empty, without panicking); on inputs with a
non-ASCII character the mixed byte/char indexing panics (see the
counterexample), so totality does not extend to the whole string domain. -/
theorem replace_strings_total_ascii (s : List Char)
    (h : ∀ c ∈ s, c.toNat ≤ 127) :
    ∃ out, replace_strings s = some out := by
  have hascii : ∀ c ∈ s, c.utf8Size = 1 := fun c hc =>
    utf8Size_eq_one_of_ascii (h c hc)
  exact replaceGo_ascii_total s hascii (byteLen s) 0 (by omega)

/-- C5 witness: a concrete ASCII line. -/
theorem replace_strings_total_ascii_witness :
    ∃ out, replace_strings "abc1".toList = some out :=
  replace_strings_total_ascii _ (by decide)

/-- From cursor `i` onward, a successful run of the loop emits only digits,
and the digit characters of the remaining input survive in order: word jumps
(`i += key.len() - 1`) skip only interior letters of the matched word, never
a digit. -/
theorem replaceGo_digits (line : List Char) :
    ∀ (fuel i : Nat) (out : List Char),
      replaceGo wordMap line fuel i = some out →
      (∀ c ∈ out, c.isDigit = true) ∧
        List.Sublist ((line.drop i).filter (fun c => c.isDigit)) out := by
  intro fuel
  induction fuel with
  | zero =>
    intro i out h
    simp only [replaceGo] at h
    split at h
    · cases h
    · next hi =>
      cases h
      have : line.length ≤ i := by
        have := length_le_byteLen line
        omega
      rw [List.drop_eq_nil_of_le this]
      exact ⟨by simp, by simp⟩
  | succ fuel ih =>
    intro i out h
    by_cases hi : i < byteLen line
    · have hsome : byteLen line = line.length :=
        replaceGo_some_ascii line (fuel + 1) i hi (by rw [h]; rfl)
      have hascii := ascii_of_byteLen_eq line hsome
      simp only [replaceGo, if_pos hi] at h
      split at h
      · cases h
      · next suffix hbd =>
        split at h
        · cases h
        · next c hget =>
          have hilen : i < line.length := by
            by_contra hcon
            rw [List.get?_eq_none.mpr (by omega)] at hget
            cases hget
          have hsuffix : suffix = line.drop i := by
            have h2 := byteDrop_ascii line hascii i (by omega)
            rw [hbd] at h2
            exact (Option.some.injEq _ _).mp h2
          have hdropc : line.drop i = c :: line.drop (i + 1) := by
            rw [List.drop_eq_getElem_cons hilen]
            congr 1
            have := List.get?_eq_get (l := line) (n := i) hilen
            rw [hget] at this
            exact ((Option.some.injEq _ _).mp this).symm
          by_cases hdig : c.isDigit
          · rw [if_pos hdig] at h
            cases hrec : replaceGo wordMap line fuel (i + 1) with
            | none =>
              rw [hrec] at h
              cases h
            | some out' =>
              rw [hrec] at h
              simp only [Option.map_some'] at h
              obtain rfl : c :: out' = out := (Option.some.injEq _ _).mp h
              obtain ⟨hd, hs⟩ := ih (i + 1) out' hrec
              refine ⟨?_, ?_⟩
              · intro x hx
                rcases List.mem_cons.mp hx with rfl | hx'
                · exact hdig
                · exact hd x hx'
              · rw [hdropc]
                simp only [List.filter_cons, hdig, if_true]
                exact List.Sublist.cons₂ c hs
          · rw [if_neg hdig] at h
            split at h
            · next kv hfm =>
              simp only [findMatch] at hfm
              have hkv : kv ∈ wordMap := List.mem_of_find?_eq_some hfm
              have hsw : startsWithKey suffix kv.1 = true := by
                have h0 := List.find?_some hfm
                simpa using h0
              have hfacts := wordMap_facts kv hkv
              obtain ⟨t, hsplit⟩ := startsWithKey_append kv.1 suffix hsw
              cases hrec : replaceGo wordMap line fuel (i + kv.1.length - 1) with
              | none =>
                rw [hrec] at h
                cases h
              | some out' =>
                rw [hrec] at h
                simp only [Option.map_some'] at h
                obtain rfl : kv.2 :: out' = out := (Option.some.injEq _ _).mp h
                obtain ⟨hd, hs⟩ := ih (i + kv.1.length - 1) out' hrec
                have hnodig : ∀ x ∈ kv.1, x.isDigit = false := hfacts.2.2.2.1
                have hdropEq : line.drop (i + kv.1.length - 1) =
                    kv.1.drop (kv.1.length - 1) ++ t := by
                  have hdd : line.drop (i + kv.1.length - 1) =
                      (line.drop i).drop (kv.1.length - 1) := by
                    rw [List.drop_drop]
                    congr 1
                    have := hfacts.2.1
                    omega
                  rw [hdd, ← hsuffix, hsplit, List.drop_append_eq_append_drop]
                  have : kv.1.length - 1 - kv.1.length = 0 := by omega
                  rw [this]
                  simp
                have hfilter1 : (line.drop i).filter (fun c => c.isDigit) =
                    t.filter (fun c => c.isDigit) := by
                  rw [← hsuffix, hsplit, List.filter_append]
                  rw [List.filter_eq_nil_iff.mpr ?_]
                  · simp
                  · intro a ha
                    simp [hnodig a ha]
                have hfilter2 : (line.drop (i + kv.1.length - 1)).filter
                    (fun c => c.isDigit) = t.filter (fun c => c.isDigit) := by
                  rw [hdropEq, List.filter_append]
                  rw [List.filter_eq_nil_iff.mpr ?_]
                  · simp
                  · intro a ha
                    simp [hnodig a (List.drop_subset _ _ ha)]
                refine ⟨?_, ?_⟩
                · intro x hx
                  rcases List.mem_cons.mp hx with rfl | hx'
                  · exact hfacts.2.2.1
                  · exact hd x hx'
                · rw [hfilter1, ← hfilter2]
                  exact List.Sublist.cons kv.2 hs
            · next hfm =>
              obtain ⟨hd, hs⟩ := ih (i + 1) out h
              refine ⟨hd, ?_⟩
              rw [hdropc]
              simp only [List.filter_cons, hdig, if_false]
              exact hs
    · simp only [replaceGo, if_neg hi] at h
      cases h
      have : line.length ≤ i := by
        have := length_le_byteLen line
        omega
      rw [List.drop_eq_nil_of_le this]
      exact ⟨by simp, by simp⟩

/-- C4: when `replace_strings` returns, the output consists of ASCII digits
only, and the input's digit characters appear in the output as a subsequence
(same relative order). -/
theorem replace_strings_digit_preservation (s out : List Char)
    (h : replace_strings s = some out) :
    (∀ c ∈ out, c.isDigit = true) ∧
      List.Sublist (s.filter (fun c => c.isDigit)) out := by
  have h0 := replaceGo_digits s (byteLen s) 0 out h
  simpa using h0

/-- C4 witness: the digits of `"a1b2"` survive in order. -/
theorem replace_strings_digit_preservation_witness :
    (∀ c ∈ (['1', '2'] : List Char), c.isDigit = true) ∧
      List.Sublist ("a1b2".toList.filter (fun c => c.isDigit)) ['1', '2'] :=
  replace_strings_digit_preservation "a1b2".toList ['1', '2'] (by decide)

/-- A matched key is the length-prefix of the string it matches. -/
theorem startsWithKey_take {s k : List Char} (h : startsWithKey s k = true) :
    s.take k.length = k := by
  obtain ⟨t, rfl⟩ := startsWithKey_append k s h
  exact List.take_left k t

/-- No entry's key is a proper prefix of another entry's key: among the nine
digit words, a key that is the length-truncation of another key is that very
key. -/
theorem wordMap_prefix_free :
    ∀ kv1 ∈ wordMap, ∀ kv2 ∈ wordMap,
      (kv1.1 = kv2.1.take kv1.1.length ∨ kv2.1 = kv1.1.take kv2.1.length) →
      kv1 = kv2 := by
  decide

/-- At a fixed position of a fixed string, at most one of the nine digit
words matches. -/
theorem findMatch_unique {s : List Char} {kv1 kv2 : List Char × Char}
    (h1 : kv1 ∈ wordMap) (h2 : kv2 ∈ wordMap)
    (hs1 : startsWithKey s kv1.1 = true)
    (hs2 : startsWithKey s kv2.1 = true) : kv1 = kv2 := by
  have ht1 := startsWithKey_take hs1
  have ht2 := startsWithKey_take hs2
  rcases Nat.le_total kv1.1.length kv2.1.length with hle | hle
  · refine wordMap_prefix_free kv1 h1 kv2 h2 (Or.inl ?_)
    rw [← ht2, List.take_take, Nat.min_eq_left hle, ht1]
  · refine wordMap_prefix_free kv1 h1 kv2 h2 (Or.inr ?_)
    rw [← ht1, List.take_take, Nat.min_eq_left hle, ht2]

/-- The scan `List.find?` is order-independent when at most one element satisfies the
predicate. -/
theorem find?_congr_of_unique {α : Type} {l1 l2 : List α} {p : α → Bool}
    (hperm : l1.Perm l2)
    (huniq : ∀ a ∈ l1, ∀ b ∈ l1, p a = true → p b = true → a = b) :
    l1.find? p = l2.find? p := by
  cases h1 : l1.find? p with
  | none =>
    have hnone := List.find?_eq_none.mp h1
    cases h2 : l2.find? p with
    | none => rfl
    | some b =>
      have hb := List.find?_some h2
      have hbl : b ∈ l2 := List.mem_of_find?_eq_some h2
      exact absurd hb (hnone b (hperm.symm.subset hbl))
  | some a =>
    have ha := List.find?_some h1
    have hal : a ∈ l1 := List.mem_of_find?_eq_some h1
    cases h2 : l2.find? p with
    | none =>
      have hnone := List.find?_eq_none.mp h2
      exact absurd ha (hnone a (hperm.subset hal))
    | some b =>
      have hb := List.find?_some h2
      have hbl : b ∈ l1 := hperm.symm.subset (List.mem_of_find?_eq_some h2)
      rw [huniq a hal b hbl ha hb]

/-- The hash-map scan of `replace_strings` finds the same entry under any
iteration order of the nine entries. -/
theorem findMatch_perm {ws : List (List Char × Char)} (hperm : ws.Perm wordMap)
    (s : List Char) : findMatch ws s = findMatch wordMap s := by
  unfold findMatch
  refine find?_congr_of_unique hperm ?_
  intro a ha b hb hpa hpb
  exact findMatch_unique (hperm.subset ha) (hperm.subset hb) hpa hpb

/-- The whole loop is insensitive to the iteration order of the map. -/
theorem replaceGo_words_congr {ws : List (List Char × Char)}
    (hperm : ws.Perm wordMap) (line : List Char) :
    ∀ (fuel i : Nat), replaceGo ws line fuel i = replaceGo wordMap line fuel i := by
  intro fuel
  induction fuel with
  | zero => intro i; rfl
  | succ fuel ih =>
    intro i
    simp only [replaceGo, findMatch_perm hperm, ih]

/-- C6: the result of `replace_strings` does not depend on the iteration
order of the nine word-to-digit entries: any permutation of the table gives
the same output on every input, because at most one word can match at a
given position. -/
theorem replace_strings_order_independent (ws : List (List Char × Char))
    (hperm : ws.Perm wordMap) (s : List Char) :
    replaceStringsWith ws s = replace_strings s := by
  unfold replace_strings replaceStringsWith
  exact replaceGo_words_congr hperm s (byteLen s) 0

/-- C6 witness: the reversed table gives the same normalization of
`"xtwone3four"`. -/
theorem replace_strings_order_independent_witness :
    replaceStringsWith wordMap.reverse "xtwone3four".toList =
      replace_strings "xtwone3four".toList :=
  replace_strings_order_independent wordMap.reverse
    (List.reverse_perm wordMap) "xtwone3four".toList
